import Mathlib

/-!
# Verification of the orb_slam_2_ros interface (src/library/interface.cpp)

This file shallowly embeds the pose-publishing interface of the
orb_slam_2_ros repository and proves the specification claims about it.

Modelling conventions:

* The C++ code computes with IEEE doubles approximating real arithmetic.
  We embed the ideal exact semantics over the rationals: every arithmetic
  operation of the source is mirrored exactly, and properties the spec
  states "up to a small numerical tolerance" are proved exactly.
* The only non-rational primitive used by the source (through Eigen) is
  the square root inside quaternion extraction.  Square-root values are
  passed as explicit oracle parameters, constrained by the defining
  predicate at exactly the argument the code takes the root of.
  The angle of Eigen's angle-axis representation is represented by the
  pair cosine/sine of the angle, which removes the trigonometric
  functions: Eigen computes the angle as 2 * atan2 (n, w) and immediately
  consumes only its cosine and sine, which are the rational expressions
  recorded in angleAxisOfQuat below.
* kindr stores rotations as unit quaternions; a unit quaternion is in
  exact bijection with its rotation matrix, and every operation the code
  performs on it (inversion, conversion to a message) acts through that
  matrix.  We therefore represent a minkindr Transformation by its
  rotation matrix together with its translation vector.
-/

namespace OrbSlam2

/-- 3x3 rational matrix, the exact model of an Eigen Matrix3d. -/
abbrev Mat3 := Matrix (Fin 3) (Fin 3) ℚ

/-- 4x4 rational matrix, the exact model of an Eigen Matrix4d. -/
abbrev Mat4 := Matrix (Fin 4) (Fin 4) ℚ

/-- Eigen quaternion: scalar part w, vector part v. -/
structure Quat where
  w : ℚ
  v : Fin 3 → ℚ

/-- Squared norm of the vector part of a quaternion, the quantity Eigen
takes the square root of when building an AngleAxis from a quaternion. -/
def vecNormSq (q : Quat) : ℚ := q.v 0 ^ 2 + q.v 1 ^ 2 + q.v 2 ^ 2

/-- The pivot index Eigen's quaternion-from-matrix routine selects in its
non-positive-trace branch: the index of the largest diagonal entry, with
Eigen's exact tie-breaking (strict comparisons). -/
def shepherdIndex (R : Mat3) : Fin 3 :=
  let i0 : Fin 3 := if R 0 0 < R 1 1 then 1 else 0
  if R i0 i0 < R 2 2 then 2 else i0

/-- The argument of the square root taken by Eigen's
quaternion-from-matrix routine (trace + 1 in the positive-trace branch,
the pivot combination otherwise). -/
def sqrtArg (R : Mat3) : ℚ :=
  if 0 < R 0 0 + R 1 1 + R 2 2 then R 0 0 + R 1 1 + R 2 2 + 1
  else
    let i := shepherdIndex R
    let j : Fin 3 := i + 1
    let k : Fin 3 := j + 1
    R i i - R j j - R k k + 1

/-- Eigen's quaternion-from-matrix conversion (internal
quaternionbase_assign_impl), with the value sqrt (sqrtArg R) supplied as
the oracle parameter r.  Both branches mirror the source: the code
computes t = sqrt(...), sets one coefficient to 0.5 * t, then rescales
the remaining entries by 0.5 / t. -/
def quatFromMat (R : Mat3) (r : ℚ) : Quat :=
  if 0 < R 0 0 + R 1 1 + R 2 2 then
    { w := r / 2,
      v := ![(R 2 1 - R 1 2) * (1 / (2 * r)),
             (R 0 2 - R 2 0) * (1 / (2 * r)),
             (R 1 0 - R 0 1) * (1 / (2 * r))] }
  else
    let i := shepherdIndex R
    let j : Fin 3 := i + 1
    let k : Fin 3 := j + 1
    { w := (R k j - R j k) * (1 / (2 * r)),
      v := fun m =>
        if m = i then r / 2
        else if m = j then (R j i + R i j) * (1 / (2 * r))
        else (R k i + R i k) * (1 / (2 * r)) }

/-- Angle-axis with the angle represented by its cosine and sine. -/
structure AngleAxisCS where
  c : ℚ
  s : ℚ
  axis : Fin 3 → ℚ

/-- Eigen's AngleAxis-from-quaternion conversion, with n the oracle value
of the norm of the vector part.  Eigen sets the angle to 2 * atan2 (n, w)
and the axis to v / n when n is positive, and falls back to angle 0 with
axis (1,0,0) otherwise; the cosine and sine of 2 * atan2 (n, w) are the
rational expressions below. -/
def angleAxisOfQuat (q : Quat) (n : ℚ) : AngleAxisCS :=
  if 0 < n then
    { c := (q.w ^ 2 - n ^ 2) / (q.w ^ 2 + n ^ 2),
      s := 2 * n * q.w / (q.w ^ 2 + n ^ 2),
      axis := fun m => q.v m / n }
  else
    { c := 1, s := 0, axis := ![1, 0, 0] }

/-- Eigen's AngleAxis::toRotationMatrix (Rodrigues reconstruction), with
c and s standing for the cosine and sine of the angle: Eigen forms
sin_axis = s * axis and cos1_axis = (1 - c) * axis and assembles exactly
these nine entries. -/
def rodrigues (c s : ℚ) (u : Fin 3 → ℚ) : Mat3 :=
  !![(1-c) * u 0 * u 0 + c, (1-c) * u 0 * u 1 - s * u 2, (1-c) * u 0 * u 2 + s * u 1;
     (1-c) * u 0 * u 1 + s * u 2, (1-c) * u 1 * u 1 + c, (1-c) * u 1 * u 2 - s * u 0;
     (1-c) * u 0 * u 2 - s * u 1, (1-c) * u 1 * u 2 + s * u 0, (1-c) * u 2 * u 2 + c]

/-- Rotation matrix reconstructed from an angle-axis. -/
def AngleAxisCS.toRotationMatrix (a : AngleAxisCS) : Mat3 := rodrigues a.c a.s a.axis

/-- r is the (non-negative) square root of x: the defining property of the
oracle values standing for the source's sqrt calls. -/
def IsSqrt (r x : ℚ) : Prop := 0 ≤ r ∧ r ^ 2 = x

instance (r x : ℚ) : Decidable (IsSqrt r x) :=
  inferInstanceAs (Decidable (0 ≤ r ∧ r ^ 2 = x))

/-- minkindr Transformation: a rigid transform.  kindr stores the rotation
as a unit quaternion; we represent it by its rotation matrix (see the
file-level comment). -/
structure Transformation where
  R : Mat3
  t : Fin 3 → ℚ

/-- minkindr Transformation::inverse(): the inverse rotation (conjugate
quaternion, i.e. transposed matrix) and the negated inversely rotated
translation. -/
def Transformation.inverse (T : Transformation) : Transformation :=
  { R := T.R.transpose,
    t := fun i => -(T.R 0 i * T.t 0 + T.R 1 i * T.t 1 + T.R 2 i * T.t 2) }

/-- The identity transform, the value of a default-constructed minkindr
Transformation (identity rotation, zero translation). -/
def Transformation.identity : Transformation := { R := 1, t := fun _ => 0 }

/-- Top-left 3x3 block of a 4x4 matrix (T_eigen_d.block<3,3>(0,0)). -/
def block3 (M : Mat4) : Mat3 := fun i j => M i.castSucc j.castSucc

/-- Top-right 3x1 block of a 4x4 matrix (T_eigen_d.block<3,1>(0,3)). -/
def trans3 (M : Mat4) (i : Fin 3) : ℚ := M i.castSucc 3

/-- Core of OrbSlam2Interface::convertOrbSlamPoseToKindr on a 4x4 matrix:
extract the 3x3 rotation block, orthonormalize it through Eigen's
AngleAxisd round-trip (quaternion extraction then Rodrigues
reconstruction), extract the translation column unmodified, and assemble
the Transformation.  r and n are the oracle values of the two square
roots the Eigen pipeline takes (see quatFromMat and angleAxisOfQuat);
the float-to-double cast of the source is exact in this model. -/
def convertPose4 (M : Mat4) (r n : ℚ) : Transformation :=
  let R_unnormalized := block3 M
  let aa := angleAxisOfQuat (quatFromMat R_unnormalized r) n
  { R := aa.toRotationMatrix, t := trans3 M }

/-- The two square-root oracle values are the roots actually taken by the
conversion pipeline on rotation block R. -/
def ValidOracles (R : Mat3) (r n : ℚ) : Prop :=
  IsSqrt r (sqrtArg R) ∧ IsSqrt n (vecNormSq (quatFromMat R r))

instance (R : Mat3) (r n : ℚ) : Decidable (ValidOracles R r n) :=
  inferInstanceAs (Decidable (_ ∧ _))

/-- cv::Mat with run-time shape, the converter's input type. -/
structure CvMat where
  rows : ℕ
  cols : ℕ
  entry : ℕ → ℕ → ℚ

/-- Conversion failure taxonomy of the spec. -/
inductive ConvError where
  | invalidInputShape
deriving DecidableEq

/-- Reading a well-shaped cv::Mat as a 4x4 matrix. -/
def CvMat.toMat4 (M : CvMat) : Mat4 := fun i j => M.entry i.val j.val

/-- OrbSlam2Interface::convertOrbSlamPoseToKindr including its argument
checks: CHECK_EQ(T_cv.cols, 4) and CHECK_EQ(T_cv.rows, 4) abort on a
malformed shape; per the spec's error taxonomy this failure is surfaced
as the InvalidInputShape error result. -/
def convertOrbSlamPoseToKindr (M : CvMat) (r n : ℚ) : Except ConvError Transformation :=
  if M.cols = 4 then
    if M.rows = 4 then .ok (convertPose4 M.toMat4 r n)
    else .error .invalidInputShape
  else .error .invalidInputShape

/-- Homogeneous 4x4 matrix assembled from a rotation block and a
translation column. -/
def homMat (R : Mat3) (t : Fin 3 → ℚ) : Mat4 :=
  !![R 0 0, R 0 1, R 0 2, t 0;
     R 1 0, R 1 1, R 1 2, t 1;
     R 2 0, R 2 1, R 2 2, t 2;
     0, 0, 0, 1]

/-- Homogeneous matrix of a Transformation. -/
def Transformation.toHomMatrix (T : Transformation) : Mat4 := homMat T.R T.t

/-- std_msgs::Header of a message: stamp and (parent) frame id. -/
structure Header where
  stamp : ℚ
  frame_id : String
deriving DecidableEq

/-- geometry_msgs::TransformStamped.  A default-constructed message has a
zero stamp, empty frame strings and (by our modelling of the identity
quaternion message) the identity transform. -/
structure TransformStampedMsg where
  header : Header
  child_frame_id : String
  transform : Transformation

/-- ORB_SLAM2::PoseWithID as fetched from the engine: raw 4x4 pose
matrix, timestamp, keyframe id (the uint64 is copied verbatim, so we
model it as a natural number). -/
structure PoseWithID where
  pose : Mat4
  timestamp : ℚ
  id : ℕ

/-- orb_slam_2_ros::TransformsWithIds: the batch message with its two
parallel arrays. -/
structure TransformsWithIds where
  transforms : List TransformStampedMsg
  keyframe_ids : List ℕ

/-- One iteration of the message-population loop of
runPublishUpdatedTrajectory (lines 58-74): convert the raw pose to
minkindr, invert it (T_W_C = T_C_W.inverse()), fill a TransformStamped
whose header stamp is the entry's timestamp, and push the transform and
the id onto the two arrays.  r and n are the square-root oracles of this
entry's conversion. -/
def trajectoryMsgStep (msg : TransformsWithIds) (p : PoseWithID) (r n : ℚ) :
    TransformsWithIds :=
  let T_C_W := convertPose4 p.pose r n
  let T_W_C := T_C_W.inverse
  { transforms := msg.transforms ++
      [{ header := { stamp := p.timestamp, frame_id := "" },
         child_frame_id := "",
         transform := T_W_C }],
    keyframe_ids := msg.keyframe_ids ++ [p.id] }

/-- The batch message assembled by runPublishUpdatedTrajectory from a
fetched snapshot: the loop over the snapshot entries starting from the
default-constructed (empty) message.  Each snapshot entry is paired with
the two square-root oracle values of its conversion. -/
def buildTrajectoryMsg (snap : List (PoseWithID × ℚ × ℚ)) : TransformsWithIds :=
  snap.foldl (fun msg e => trajectoryMsgStep msg e.1 e.2.1 e.2.2) ⟨[], []⟩

/-- OrbSlam2Interface::shutdown (and the spec's signalShutdown): sets the
flag to true, unconditionally. -/
def signalShutdown (_flag : Bool) : Bool := true

/-- The polling loop of runPublishUpdatedTrajectory, abstracted over
discrete polling iterations: at iteration k the loop reads the shutdown
flag and terminates if it is set; otherwise it queries the availability
predicate and, when it is true, fetches (recording k in the returned
list of fetch iterations); then it sleeps and proceeds to iteration
k + 1.  fuel bounds the number of iterations considered. -/
def pollFetches : ℕ → ℕ → (ℕ → Bool) → (ℕ → Bool) → List ℕ
  | 0, _, _, _ => []
  | Nat.succ fuel, k, flag, avail =>
    if flag k then []
    else (if avail k then [k] else []) ++ pollFetches fuel (k + 1) flag avail

/-- The interface state the publishers read: the configured parent and
child frame names and the shared pose state T_W_C_. -/
structure InterfaceState where
  frame_id : String
  child_frame_id : String
  T_W_C : Transformation

/-- The interface state before the shared pose is ever written: the frame
names hold their configured values and T_W_C_ is the default-constructed
minkindr Transformation, i.e. the identity transform. -/
def initialInterfaceState (fid cfid : String) : InterfaceState :=
  { frame_id := fid, child_frame_id := cfid, T_W_C := Transformation.identity }

/-- tf::StampedTransform as handed to the TF broadcaster: transform,
stamp, parent frame, child frame. -/
structure StampedTF where
  transform : Transformation
  stamp : ℚ
  frame_id : String
  child_frame_id : String

/-- OrbSlam2Interface::publishCurrentPoseAsTF: every timer tick converts
the shared pose state to a TF transform and broadcasts it stamped with
the current time and the configured frame names. -/
def publishCurrentPoseAsTF (s : InterfaceState) (now : ℚ) : StampedTF :=
  { transform := s.T_W_C, stamp := now,
    frame_id := s.frame_id, child_frame_id := s.child_frame_id }

/-- OrbSlam2Interface::publishCurrentPose: copy the caller-supplied
header into the message verbatim, overwrite only the child frame id with
the configured child frame name, write the transform, publish.  The
interface state is returned unchanged: the function mutates no member. -/
def publishCurrentPose (s : InterfaceState) (T : Transformation) (header : Header) :
    TransformStampedMsg × InterfaceState :=
  ({ header := header, child_frame_id := s.child_frame_id, transform := T }, s)

/-! ## Concrete sample inputs used by witness theorems -/

/-- A well-formed homogeneous pose: identity rotation, translation
(1, 2, 3). -/
def demoM : Mat4 := !![1, 0, 0, 1; 0, 1, 0, 2; 0, 0, 1, 3; 0, 0, 0, 1]

/-- The inverse of demoM. -/
def demoMinv : Mat4 := !![1, 0, 0, -1; 0, 1, 0, -2; 0, 0, 1, -3; 0, 0, 0, 1]

/-- A cv::Mat with an invalid 3x4 shape. -/
def demoBadMat : CvMat := { rows := 3, cols := 4, entry := fun _ _ => 0 }

/-- A well-shaped 4x4 cv::Mat (the identity pose). -/
def demoGoodMat : CvMat :=
  { rows := 4, cols := 4, entry := fun i j => if i = j then 1 else 0 }

/-! ## Helper lemmas -/

theorem Transformation.ext {T₁ T₂ : Transformation} (hR : T₁.R = T₂.R)
    (ht : T₁.t = T₂.t) : T₁ = T₂ := by
  cases T₁; cases T₂; simp_all

/-- Columns of a Rodrigues matrix with unit axis and unit (cos, sin) pair
are orthonormal. -/
theorem rodrigues_transpose_mul (c s : ℚ) (u : Fin 3 → ℚ)
    (hcs : c ^ 2 + s ^ 2 = 1) (hu : u 0 ^ 2 + u 1 ^ 2 + u 2 ^ 2 = 1) :
    (rodrigues c s u).transpose * rodrigues c s u = 1 := by
  ext i j
  simp only [Matrix.mul_apply, Matrix.transpose_apply, Fin.sum_univ_three]
  fin_cases i <;> fin_cases j <;> simp [rodrigues, Matrix.one_apply]
  · linear_combination ((1-c)^2 * u 0 ^ 2 + s ^ 2) * hu + (1 - u 0 ^ 2) * hcs
  · linear_combination ((1-c)^2 * u 0 * u 1) * hu - (u 0 * u 1) * hcs
  · linear_combination ((1-c)^2 * u 0 * u 2) * hu - (u 0 * u 2) * hcs
  · linear_combination ((1-c)^2 * u 0 * u 1) * hu - (u 0 * u 1) * hcs
  · linear_combination ((1-c)^2 * u 1 ^ 2 + s ^ 2) * hu + (1 - u 1 ^ 2) * hcs
  · linear_combination ((1-c)^2 * u 1 * u 2) * hu - (u 1 * u 2) * hcs
  · linear_combination ((1-c)^2 * u 0 * u 2) * hu - (u 0 * u 2) * hcs
  · linear_combination ((1-c)^2 * u 1 * u 2) * hu - (u 1 * u 2) * hcs
  · linear_combination ((1-c)^2 * u 2 ^ 2 + s ^ 2) * hu + (1 - u 2 ^ 2) * hcs

/-- A Rodrigues matrix with unit axis and unit (cos, sin) pair has
determinant one. -/
theorem rodrigues_det (c s : ℚ) (u : Fin 3 → ℚ)
    (hcs : c ^ 2 + s ^ 2 = 1) (hu : u 0 ^ 2 + u 1 ^ 2 + u 2 ^ 2 = 1) :
    (rodrigues c s u).det = 1 := by
  simp [rodrigues, Matrix.det_fin_three]
  linear_combination ((1-c) * s^2 * (u 0^2 + u 1^2 + u 2^2 + 1) + (1-c) * c^2 + c * s^2) * hu
    + hcs

/-- Transposing a Rodrigues matrix negates the sine. -/
theorem rodrigues_transpose (c s : ℚ) (u : Fin 3 → ℚ) :
    (rodrigues c s u).transpose = rodrigues c (-s) u := by
  ext i j
  simp only [Matrix.transpose_apply]
  fin_cases i <;> fin_cases j <;> simp [rodrigues] <;> ring

/-- Two Rodrigues parameterizations whose cosine, sine-scaled axis and
(1 - cos)-scaled outer products agree yield the same matrix. -/
theorem rodrigues_eq_of (c₁ s₁ : ℚ) (u₁ : Fin 3 → ℚ) (c₂ s₂ : ℚ) (u₂ : Fin 3 → ℚ)
    (hc : c₁ = c₂) (hsu : ∀ m, s₁ * u₁ m = s₂ * u₂ m)
    (hcu : ∀ m l, (1 - c₁) * u₁ m * u₁ l = (1 - c₂) * u₂ m * u₂ l) :
    rodrigues c₁ s₁ u₁ = rodrigues c₂ s₂ u₂ := by
  ext i j
  fin_cases i <;> fin_cases j <;> simp [rodrigues]
  · linear_combination hcu 0 0 + hc
  · linear_combination hcu 0 1 - hsu 2
  · linear_combination hcu 0 2 + hsu 1
  · linear_combination hcu 0 1 + hsu 2
  · linear_combination hcu 1 1 + hc
  · linear_combination hcu 1 2 - hsu 0
  · linear_combination hcu 0 2 - hsu 1
  · linear_combination hcu 1 2 + hsu 0
  · linear_combination hcu 2 2 + hc

/-- The angle-axis Eigen extracts from any quaternion has a unit
(cosine, sine) pair and a unit axis, whenever the supplied norm oracle is
valid. -/
theorem angleAxis_constraints (q : Quat) (n : ℚ) (hn : IsSqrt n (vecNormSq q)) :
    ((angleAxisOfQuat q n).c ^ 2 + (angleAxisOfQuat q n).s ^ 2 = 1) ∧
    ((angleAxisOfQuat q n).axis 0 ^ 2 + (angleAxisOfQuat q n).axis 1 ^ 2 +
      (angleAxisOfQuat q n).axis 2 ^ 2 = 1) := by
  obtain ⟨hn0, hn2⟩ := hn
  by_cases h : 0 < n
  · have hnne : n ≠ 0 := ne_of_gt h
    have hpos : 0 < q.w ^ 2 + n ^ 2 := by
      have h1 : 0 < n ^ 2 := pow_pos h 2
      nlinarith [sq_nonneg q.w]
    have hne : q.w ^ 2 + n ^ 2 ≠ 0 := ne_of_gt hpos
    constructor
    · simp only [angleAxisOfQuat, if_pos h]
      field_simp
      ring
    · simp only [angleAxisOfQuat, if_pos h]
      rw [vecNormSq] at hn2
      field_simp
      linear_combination (-1 : ℚ) * hn2
  · constructor <;> simp [angleAxisOfQuat, if_neg h]

/-- The rotation block of a homogeneous matrix is its rotation. -/
theorem block3_homMat (R : Mat3) (t : Fin 3 → ℚ) : block3 (homMat R t) = R := by
  ext i j
  fin_cases i <;> fin_cases j <;>
    simp [block3, homMat, show Fin.castSucc (2 : Fin 3) = (2 : Fin 4) from rfl]

/-- The translation column of a homogeneous matrix is its translation. -/
theorem trans3_homMat (R : Mat3) (t : Fin 3 → ℚ) : trans3 (homMat R t) = t := by
  funext i
  fin_cases i <;>
    simp [trans3, homMat, show Fin.castSucc (2 : Fin 3) = (2 : Fin 4) from rfl]

/-- A three-term sum can be re-enumerated starting from any index. -/
theorem sum3_cyclic (g : Fin 3 → ℚ) (p : Fin 3) :
    g 0 + g 1 + g 2 = g p + g (p + 1) + g (p + 1 + 1) := by
  fin_cases p <;> simp <;> ring

/-- Every index of Fin 3 is the pivot, its successor, or its second
successor. -/
theorem fin3_cyclic : ∀ p m : Fin 3, m = p ∨ m = p + 1 ∨ m = p + 1 + 1 := by
  decide

/-- Round-trip core for the pivot branch of Eigen's quaternion
extraction: a quaternion of the pivot shape read off a Rodrigues matrix
reconstructs that matrix exactly. -/
theorem roundtrip_pivot (c s : ℚ) (u : Fin 3 → ℚ) (q : Quat) (r n : ℚ) (p : Fin 3)
    (hcs : c ^ 2 + s ^ 2 = 1) (hu : u 0 ^ 2 + u 1 ^ 2 + u 2 ^ 2 = 1)
    (hc1 : c < 1) (hup : u p ≠ 0)
    (hr0 : 0 ≤ r) (hr2 : r ^ 2 = 2 * (1 - c) * u p ^ 2)
    (hw : q.w = s * u p / r)
    (hvp : q.v p = r / 2)
    (hvj : q.v (p + 1) = (1 - c) * u p * u (p + 1) / r)
    (hvk : q.v (p + 1 + 1) = (1 - c) * u p * u (p + 1 + 1) / r)
    (hn : IsSqrt n (vecNormSq q)) :
    (angleAxisOfQuat q n).toRotationMatrix = rodrigues c s u := by
  obtain ⟨hn0, hn2⟩ := hn
  have hA : 0 < 1 - c := by linarith
  have hAne : (1 : ℚ) - c ≠ 0 := ne_of_gt hA
  have hup2 : 0 < u p ^ 2 := lt_of_le_of_ne (sq_nonneg (u p)) (Ne.symm (pow_ne_zero 2 hup))
  have hr2pos : 0 < r ^ 2 := by
    rw [hr2]; exact mul_pos (mul_pos (by norm_num) hA) hup2
  have hrne : r ≠ 0 := by
    intro h; rw [h] at hr2pos; simp at hr2pos
  have husum : u p ^ 2 + u (p + 1) ^ 2 + u (p + 1 + 1) ^ 2 = 1 := by
    rw [← hu]; exact (sum3_cyclic (fun m => u m ^ 2) p).symm
  have hn2' : n ^ 2 = (1 - c) / 2 := by
    have hv : q.v 0 ^ 2 + q.v 1 ^ 2 + q.v 2 ^ 2 =
        q.v p ^ 2 + q.v (p + 1) ^ 2 + q.v (p + 1 + 1) ^ 2 :=
      sum3_cyclic (fun m => q.v m ^ 2) p
    rw [vecNormSq] at hn2
    rw [hv, hvp, hvj, hvk] at hn2
    rw [hn2]
    field_simp
    linear_combination
      (2 * r ^ 4 - 4 * (1 - c) * r ^ 2 * (u (p + 1) ^ 2 + u (p + 1 + 1) ^ 2)) * hr2
      + 4 * (1 - c) * r ^ 4 * husum
  have hnpos : 0 < n := by
    rcases eq_or_lt_of_le hn0 with h | h
    · exfalso; rw [← h] at hn2'; norm_num at hn2'; linarith
    · exact h
  have hnne : n ≠ 0 := ne_of_gt hnpos
  have hq1 : q.w ^ 2 + n ^ 2 = 1 := by
    rw [hw, hn2']
    field_simp
    linear_combination 2 * u p ^ 2 * hcs - (1 + c) * hr2
  have hceq : (q.w ^ 2 - n ^ 2) / (q.w ^ 2 + n ^ 2) = c := by
    rw [hq1, div_one, hw, hn2']
    field_simp
    linear_combination 2 * u p ^ 2 * hcs - (1 + c) * hr2
  have hsv : ∀ m : Fin 3, 2 * (q.w * q.v m) = s * u m := by
    intro m
    rcases fin3_cyclic p m with h | h | h <;> rw [h, hw]
    · rw [hvp]; field_simp
    · rw [hvj]; field_simp
      linear_combination (-(s * u (p + 1))) * hr2
    · rw [hvk]; field_simp
      linear_combination (-(s * u (p + 1 + 1))) * hr2
  have hprod : ∀ m l : Fin 3, 2 * (q.v m * q.v l) = (1 - c) * (u m * u l) := by
    intro m l
    rcases fin3_cyclic p m with h | h | h <;>
      rcases fin3_cyclic p l with h2 | h2 | h2 <;>
        rw [h, h2] <;> simp only [hvp, hvj, hvk] <;> field_simp
    · linear_combination 2 * hr2
    · ring
    · ring
    · ring
    · linear_combination (-((1 - c) * u (p + 1) ^ 2)) * hr2
    · linear_combination (-((1 - c) * u (p + 1) * u (p + 1 + 1))) * hr2
    · ring
    · linear_combination (-((1 - c) * u (p + 1 + 1) * u (p + 1))) * hr2
    · linear_combination (-((1 - c) * u (p + 1 + 1) ^ 2)) * hr2
  simp only [AngleAxisCS.toRotationMatrix, angleAxisOfQuat, if_pos hnpos]
  apply rodrigues_eq_of
  · exact hceq
  · intro m
    rw [hq1, div_one]
    field_simp
    linear_combination n * hsv m
  · intro m l
    rw [hceq]
    field_simp
    linear_combination ((1 - c) / 2) * hprod m l - (1 - c) * (u m * u l) * hn2'

/-- Round-trip core for the positive-trace branch of Eigen's quaternion
extraction. -/
theorem roundtrip_trace (c s : ℚ) (u : Fin 3 → ℚ) (q : Quat) (r n : ℚ)
    (hcs : c ^ 2 + s ^ 2 = 1) (hu : u 0 ^ 2 + u 1 ^ 2 + u 2 ^ 2 = 1)
    (hc2 : -(1/2) < c)
    (hr0 : 0 ≤ r) (hr2 : r ^ 2 = 2 + 2 * c)
    (hw : q.w = r / 2)
    (hv : ∀ m, q.v m = s * u m / r)
    (hn : IsSqrt n (vecNormSq q)) :
    (angleAxisOfQuat q n).toRotationMatrix = rodrigues c s u := by
  obtain ⟨hn0, hn2⟩ := hn
  have hr2pos : 0 < r ^ 2 := by rw [hr2]; linarith
  have hrne : r ≠ 0 := by intro h; rw [h] at hr2pos; simp at hr2pos
  have hn2' : n ^ 2 = s ^ 2 / r ^ 2 := by
    rw [vecNormSq, hv 0, hv 1, hv 2] at hn2
    rw [hn2]
    field_simp
    linear_combination s ^ 2 * hu
  by_cases hnp : 0 < n
  · have hnne : n ≠ 0 := ne_of_gt hnp
    have hn2c : n ^ 2 = (1 - c) / 2 := by
      rw [hn2']
      field_simp
      linear_combination (-(1 - c)) * hr2 + 2 * hcs
    have hq1 : q.w ^ 2 + n ^ 2 = 1 := by
      rw [hw, hn2c]
      field_simp
      linear_combination 2 * hr2
    have hceq : (q.w ^ 2 - n ^ 2) / (q.w ^ 2 + n ^ 2) = c := by
      rw [hq1, div_one, hw, hn2c]
      field_simp
      linear_combination 2 * hr2
    have hsv : ∀ m : Fin 3, 2 * (q.w * q.v m) = s * u m := by
      intro m
      rw [hw, hv m]
      field_simp
      ring
    have hprod : ∀ m l : Fin 3, 2 * (q.v m * q.v l) = (1 - c) * (u m * u l) := by
      intro m l
      rw [hv m, hv l]
      field_simp
      linear_combination (-((1 - c) * (u m * u l))) * hr2 + 2 * (u m * u l) * hcs
    simp only [AngleAxisCS.toRotationMatrix, angleAxisOfQuat, if_pos hnp]
    apply rodrigues_eq_of
    · exact hceq
    · intro m
      rw [hq1, div_one]
      field_simp
      linear_combination n * hsv m
    · intro m l
      rw [hceq]
      field_simp
      linear_combination ((1 - c) / 2) * hprod m l - (1 - c) * (u m * u l) * hn2c
  · have hn0' : n = 0 := le_antisymm (not_lt.mp hnp) hn0
    have hs0 : s = 0 := by
      rw [hn0'] at hn2'
      have h0 : s ^ 2 / r ^ 2 = 0 := by rw [← hn2']; norm_num
      have h1 : s ^ 2 = 0 := by
        rcases div_eq_zero_iff.mp h0 with h | h
        · exact h
        · exact absurd (pow_eq_zero_iff (by norm_num) |>.mp h) hrne
      exact pow_eq_zero_iff (by norm_num) |>.mp h1
    have hcone : c = 1 := by
      have hfac : (c - 1) * (c + 1) = 0 := by
        rw [hs0] at hcs
        linear_combination hcs
      rcases mul_eq_zero.mp hfac with h | h
      · linarith
      · linarith
    simp only [AngleAxisCS.toRotationMatrix, angleAxisOfQuat, hn0']
    rw [if_neg (lt_irrefl 0)]
    apply rodrigues_eq_of
    · exact hcone.symm
    · intro m
      rw [hs0]
      ring
    · intro m l
      rw [hcone]
      ring

/-- Round-trip for the non-positive-trace branch of Eigen's quaternion
extraction, given the selected pivot index and that the corresponding
axis component is non-zero. -/
theorem roundtrip_else (c s : ℚ) (u : Fin 3 → ℚ) (r n : ℚ) (p : Fin 3)
    (hcs : c ^ 2 + s ^ 2 = 1) (hu : u 0 ^ 2 + u 1 ^ 2 + u 2 ^ 2 = 1)
    (hpos : ¬ 0 < rodrigues c s u 0 0 + rodrigues c s u 1 1 + rodrigues c s u 2 2)
    (hidx : shepherdIndex (rodrigues c s u) = p) (hup : u p ≠ 0)
    (hr : IsSqrt r (sqrtArg (rodrigues c s u)))
    (hn : IsSqrt n (vecNormSq (quatFromMat (rodrigues c s u) r))) :
    (angleAxisOfQuat (quatFromMat (rodrigues c s u) r) n).toRotationMatrix
      = rodrigues c s u := by
  obtain ⟨hr0, hr2⟩ := hr
  have htr : rodrigues c s u 0 0 + rodrigues c s u 1 1 + rodrigues c s u 2 2
      = 1 + 2 * c := by
    simp [rodrigues]
    linear_combination (1 - c) * hu
  have hc2 : c < 1 := by
    have h := not_lt.mp hpos
    rw [htr] at h
    linarith
  have hA : 0 < 1 - c := by linarith
  have hoff : rodrigues c s u (p+1+1) (p+1) - rodrigues c s u (p+1) (p+1+1)
      = 2 * s * u p := by
    fin_cases p <;> simp [rodrigues] <;> ring
  have hdiag : rodrigues c s u p p - rodrigues c s u (p+1) (p+1)
      - rodrigues c s u (p+1+1) (p+1+1) + 1 = 2 * (1-c) * u p ^ 2 := by
    fin_cases p <;> simp [rodrigues] <;> linear_combination (-(1-c)) * hu
  have hsum1 : rodrigues c s u (p+1) p + rodrigues c s u p (p+1)
      = 2 * (1-c) * u p * u (p+1) := by
    fin_cases p <;> simp [rodrigues] <;> ring
  have hsum2 : rodrigues c s u (p+1+1) p + rodrigues c s u p (p+1+1)
      = 2 * (1-c) * u p * u (p+1+1) := by
    fin_cases p <;> simp [rodrigues] <;> ring
  have hsqa : sqrtArg (rodrigues c s u) = 2 * (1-c) * u p ^ 2 := by
    rw [← hdiag]
    simp [sqrtArg, hpos, hidx]
  have hr2' : r ^ 2 = 2 * (1-c) * u p ^ 2 := hr2.trans hsqa
  have hq : quatFromMat (rodrigues c s u) r =
      { w := (rodrigues c s u (p+1+1) (p+1) - rodrigues c s u (p+1) (p+1+1)) * (1/(2*r)),
        v := fun m => if m = p then r / 2
          else if m = p + 1 then
            (rodrigues c s u (p+1) p + rodrigues c s u p (p+1)) * (1/(2*r))
          else
            (rodrigues c s u (p+1+1) p + rodrigues c s u p (p+1+1)) * (1/(2*r)) } := by
    simp [quatFromMat, hpos, hidx]
  have hne1 : p + 1 ≠ p := by fin_cases p <;> decide
  have hne2 : p + 1 + 1 ≠ p := by fin_cases p <;> decide
  have hne3 : p + 1 + 1 ≠ p + 1 := by fin_cases p <;> decide
  have hw : (quatFromMat (rodrigues c s u) r).w = s * u p / r := by
    rw [hq, hoff]
    ring
  have hvp : (quatFromMat (rodrigues c s u) r).v p = r / 2 := by
    rw [hq]
    simp
  have hvj : (quatFromMat (rodrigues c s u) r).v (p + 1)
      = (1-c) * u p * u (p+1) / r := by
    rw [hq]
    simp [hne1]
    linear_combination (1 / (2 * r)) * hsum1
  have hvk : (quatFromMat (rodrigues c s u) r).v (p + 1 + 1)
      = (1-c) * u p * u (p+1+1) / r := by
    rw [hq]
    simp [hne2, hne3]
    linear_combination (1 / (2 * r)) * hsum2
  exact roundtrip_pivot c s u _ r n p hcs hu hc2 hup hr0 hr2' hw hvp hvj hvk hn

/-- Eigen's matrix → quaternion → angle-axis → matrix chain, as used by
convertOrbSlamPoseToKindr, reproduces any rotation matrix given in
Rodrigues form exactly, whichever branch of the quaternion extraction it
takes. -/
theorem shepherd_roundtrip (c s : ℚ) (u : Fin 3 → ℚ) (r n : ℚ)
    (hcs : c ^ 2 + s ^ 2 = 1) (hu : u 0 ^ 2 + u 1 ^ 2 + u 2 ^ 2 = 1)
    (hr : IsSqrt r (sqrtArg (rodrigues c s u)))
    (hn : IsSqrt n (vecNormSq (quatFromMat (rodrigues c s u) r))) :
    (angleAxisOfQuat (quatFromMat (rodrigues c s u) r) n).toRotationMatrix
      = rodrigues c s u := by
  have htr : rodrigues c s u 0 0 + rodrigues c s u 1 1 + rodrigues c s u 2 2
      = 1 + 2 * c := by
    simp [rodrigues]
    linear_combination (1 - c) * hu
  by_cases hpos : 0 < rodrigues c s u 0 0 + rodrigues c s u 1 1 + rodrigues c s u 2 2
  · obtain ⟨hr0, hr2⟩ := hr
    have hc2 : -(1/2) < c := by
      rw [htr] at hpos
      linarith
    have hr2' : r ^ 2 = 2 + 2 * c := by
      rw [hr2]
      simp [sqrtArg, hpos]
      linear_combination htr
    have hq : quatFromMat (rodrigues c s u) r =
        { w := r / 2,
          v := ![(rodrigues c s u 2 1 - rodrigues c s u 1 2) * (1/(2*r)),
                 (rodrigues c s u 0 2 - rodrigues c s u 2 0) * (1/(2*r)),
                 (rodrigues c s u 1 0 - rodrigues c s u 0 1) * (1/(2*r))] } := by
      simp [quatFromMat, hpos]
    have hw : (quatFromMat (rodrigues c s u) r).w = r / 2 := by rw [hq]
    have hv : ∀ m, (quatFromMat (rodrigues c s u) r).v m = s * u m / r := by
      intro m
      rw [hq]
      fin_cases m <;> simp [rodrigues] <;> ring
    exact roundtrip_trace c s u _ r n hcs hu hc2 hr0 hr2' hw hv hn
  · have hA : 0 < 1 - c := by
      have h := not_lt.mp hpos
      rw [htr] at h
      linarith
    by_cases h1 : rodrigues c s u 0 0 < rodrigues c s u 1 1
    · by_cases h2 : rodrigues c s u 1 1 < rodrigues c s u 2 2
      · have hidx : shepherdIndex (rodrigues c s u) = 2 := by
          simp [shepherdIndex, h1, h2]
        have hq2 : u 1 * u 1 < u 2 * u 2 := by
          have h := h2
          simp [rodrigues] at h
          nlinarith [hA]
        have hup : u 2 ≠ 0 := by
          intro h0
          rw [h0] at hq2
          nlinarith [mul_self_nonneg (u 1)]
        exact roundtrip_else c s u r n 2 hcs hu hpos hidx hup hr hn
      · have hidx : shepherdIndex (rodrigues c s u) = 1 := by
          simp [shepherdIndex, h1, h2]
        have hq1 : u 0 * u 0 < u 1 * u 1 := by
          have h := h1
          simp [rodrigues] at h
          nlinarith [hA]
        have hup : u 1 ≠ 0 := by
          intro h0
          rw [h0] at hq1
          nlinarith [mul_self_nonneg (u 0)]
        exact roundtrip_else c s u r n 1 hcs hu hpos hidx hup hr hn
    · by_cases h2 : rodrigues c s u 0 0 < rodrigues c s u 2 2
      · have hidx : shepherdIndex (rodrigues c s u) = 2 := by
          simp [shepherdIndex, h1, h2]
        have hq2 : u 0 * u 0 < u 2 * u 2 := by
          have h := h2
          simp [rodrigues] at h
          nlinarith [hA]
        have hup : u 2 ≠ 0 := by
          intro h0
          rw [h0] at hq2
          nlinarith [mul_self_nonneg (u 0)]
        exact roundtrip_else c s u r n 2 hcs hu hpos hidx hup hr hn
      · have hidx : shepherdIndex (rodrigues c s u) = 0 := by
          simp [shepherdIndex, h1, h2]
        have hq1 : u 1 * u 1 ≤ u 0 * u 0 := by
          have h := not_lt.mp h1
          simp [rodrigues] at h
          nlinarith [hA]
        have hq2 : u 2 * u 2 ≤ u 0 * u 0 := by
          have h := not_lt.mp h2
          simp [rodrigues] at h
          nlinarith [hA]
        have hup : u 0 ≠ 0 := by
          intro h0
          rw [h0] at hq1 hq2 hu
          nlinarith
        exact roundtrip_else c s u r n 0 hcs hu hpos hidx hup hr hn

/-- The message-population loop, run from any accumulator, appends one
converted-inverted transform and one id per snapshot entry, in order. -/
theorem buildTrajectoryMsg_go (snap : List (PoseWithID × ℚ × ℚ)) :
    ∀ acc : TransformsWithIds,
      snap.foldl (fun msg e => trajectoryMsgStep msg e.1 e.2.1 e.2.2) acc =
      { transforms := acc.transforms ++ snap.map (fun e =>
          { header := { stamp := e.1.timestamp, frame_id := "" },
            child_frame_id := "",
            transform := (convertPose4 e.1.pose e.2.1 e.2.2).inverse }),
        keyframe_ids := acc.keyframe_ids ++ snap.map (fun e => e.1.id) } := by
  induction snap with
  | nil => intro acc; simp
  | cons e rest ih =>
    intro acc
    rw [List.foldl_cons, ih]
    simp [trajectoryMsgStep]

/-- Closed form of the batch message built by the trajectory loop. -/
theorem buildTrajectoryMsg_spec (snap : List (PoseWithID × ℚ × ℚ)) :
    buildTrajectoryMsg snap =
      { transforms := snap.map (fun e =>
          { header := { stamp := e.1.timestamp, frame_id := "" },
            child_frame_id := "",
            transform := (convertPose4 e.1.pose e.2.1 e.2.2).inverse }),
        keyframe_ids := snap.map (fun e => e.1.id) } := by
  rw [buildTrajectoryMsg, buildTrajectoryMsg_go]
  simp

/-- Every fetch recorded by the polling loop happened at an iteration
whose shutdown-flag read returned false, at or after the start
iteration. -/
theorem pollFetches_mem (fuel : ℕ) : ∀ (k : ℕ) (flag avail : ℕ → Bool) (j : ℕ),
    j ∈ pollFetches fuel k flag avail → flag j = false ∧ k ≤ j := by
  induction fuel with
  | zero =>
    intro k flag avail j h
    simp [pollFetches] at h
  | succ fuel ih =>
    intro k flag avail j h
    rw [pollFetches] at h
    by_cases hf : flag k
    · rw [if_pos hf] at h
      simp at h
    · rw [if_neg hf] at h
      rcases List.mem_append.mp h with h1 | h1
      · by_cases ha : avail k
        · rw [if_pos ha] at h1
          simp at h1
          subst h1
          exact ⟨by simpa using hf, le_refl j⟩
        · rw [if_neg ha] at h1
          simp at h1
      · obtain ⟨hj, hk⟩ := ih (k + 1) flag avail j h1
        exact ⟨hj, by omega⟩

/-- A monotone flag that is set at time t stays set afterwards. -/
theorem flag_mono_ge (flag : ℕ → Bool)
    (hmono : ∀ k, flag k = true → flag (k + 1) = true)
    (t : ℕ) (ht : flag t = true) : ∀ j, t ≤ j → flag j = true := by
  intro j hj
  induction j, hj using Nat.le_induction with
  | base => exact ht
  | succ j hj ih => exact hmono j ih

/-! ## Claim theorems -/

/-- C1: for every fetched trajectory snapshot of length N, the batch
message published by the poller has a transforms array and a
keyframe_ids array of equal length N, and for every index i < N the
transform at index i and the id at index i both correspond to the i-th
PoseWithID of the input snapshot (the transform carries that entry's
timestamp and its converted, inverted pose; the id is that entry's id). -/
theorem C1_parallel_arrays (snap : List (PoseWithID × ℚ × ℚ)) :
    (buildTrajectoryMsg snap).transforms.length = snap.length ∧
    (buildTrajectoryMsg snap).keyframe_ids.length = snap.length ∧
    ∀ i : ℕ,
      ((buildTrajectoryMsg snap).transforms[i]? = (snap[i]?).map (fun e =>
        { header := { stamp := e.1.timestamp, frame_id := "" },
          child_frame_id := "",
          transform := (convertPose4 e.1.pose e.2.1 e.2.2).inverse })) ∧
      ((buildTrajectoryMsg snap).keyframe_ids[i]? = (snap[i]?).map (fun e => e.1.id)) := by
  rw [buildTrajectoryMsg_spec]
  refine ⟨by simp, by simp, fun i => ⟨?_, ?_⟩⟩ <;> simp

/-- C3: for every PoseWithID entry of a fetched snapshot, processed in
snapshot order, the transform placed in the published batch equals the
inverse of the converted pose, and the timestamp and keyframe id
attached to that entry in the batch equal the original entry's timestamp
and id unchanged. -/
theorem C3_batch_contents (snap : List (PoseWithID × ℚ × ℚ)) :
    (buildTrajectoryMsg snap).transforms = snap.map (fun e =>
      { header := { stamp := e.1.timestamp, frame_id := "" },
        child_frame_id := "",
        transform := (convertPose4 e.1.pose e.2.1 e.2.2).inverse }) ∧
    (buildTrajectoryMsg snap).keyframe_ids = snap.map (fun e => e.1.id) := by
  rw [buildTrajectoryMsg_spec]
  exact ⟨rfl, rfl⟩

/-- C4: for every 4x4 input matrix, the translation of the
Transformation produced by the pose converter equals the top-right 3x1
block of the input exactly, unmodified, whatever the values of the
square-root oracles used by the rotation repair. -/
theorem C4_translation_exact (M : Mat4) (r n : ℚ) :
    (convertPose4 M r n).t = trans3 M ∧
    ∀ i : Fin 3, (convertPose4 M r n).t i = M i.castSucc 3 :=
  ⟨rfl, fun _ => rfl⟩

/-- C5: the pose converter requires its input matrix to be exactly
4 rows by 4 columns; for every input violating this shape it fails with
an InvalidInputShape error, and for every input satisfying it the error
branch is unreachable and a Transformation is produced. -/
theorem C5_shape_check (M : CvMat) (r n : ℚ) :
    (¬(M.rows = 4 ∧ M.cols = 4) →
      convertOrbSlamPoseToKindr M r n = .error .invalidInputShape) ∧
    ((M.rows = 4 ∧ M.cols = 4) →
      convertOrbSlamPoseToKindr M r n = .ok (convertPose4 M.toMat4 r n)) := by
  constructor
  · intro h
    simp only [convertOrbSlamPoseToKindr]
    by_cases hc : M.cols = 4
    · rw [if_pos hc]
      by_cases hrw : M.rows = 4
      · exact absurd ⟨hrw, hc⟩ h
      · rw [if_neg hrw]
    · rw [if_neg hc]
  · rintro ⟨h1, h2⟩
    simp only [convertOrbSlamPoseToKindr]
    rw [if_pos h2, if_pos h1]

/-- Witness for C5: the 3x4 matrix is rejected with InvalidInputShape
and the 4x4 identity pose is converted successfully. -/
theorem C5_shape_check_witness :
    convertOrbSlamPoseToKindr demoBadMat 2 0 = .error .invalidInputShape ∧
    convertOrbSlamPoseToKindr demoGoodMat 2 0
      = .ok (convertPose4 demoGoodMat.toMat4 2 0) :=
  ⟨(C5_shape_check demoBadMat 2 0).1 (by decide),
   (C5_shape_check demoGoodMat 2 0).2 (by decide)⟩

/-- C6: once the shutdown flag has been set (by signalShutdown, which is
idempotent and only sets the flag), the poller loop observes termination
and issues no further fetch calls at or after the iteration at which the
flag is visible: every recorded fetch iteration precedes it. -/
theorem C6_shutdown_stops (fuel t : ℕ) (flag avail : ℕ → Bool)
    (hmono : ∀ k, flag k = true → flag (k + 1) = true)
    (hset : flag t = true) :
    (∀ b, signalShutdown (signalShutdown b) = signalShutdown b ∧
      signalShutdown b = true) ∧
    ∀ j ∈ pollFetches fuel 0 flag avail, j < t := by
  refine ⟨fun b => ⟨rfl, rfl⟩, ?_⟩
  intro j hj
  obtain ⟨hfalse, _⟩ := pollFetches_mem fuel 0 flag avail j hj
  by_contra hge
  have htrue := flag_mono_ge flag hmono t hset j (by omega)
  rw [htrue] at hfalse
  simp at hfalse

/-- Witness for C6: with the flag set from iteration 2 on and updates
always available, a 5-iteration run fetches only at iterations 0 and 1. -/
theorem C6_shutdown_stops_witness :
    (signalShutdown (signalShutdown false) = signalShutdown false) ∧
    ∀ j ∈ pollFetches 5 0 (fun k => decide (2 ≤ k)) (fun _ => true), j < 2 := by
  have h := C6_shutdown_stops 5 2 (fun k => decide (2 ≤ k)) (fun _ => true)
    (by intro k hk; simp at hk ⊢; omega) (by decide)
  exact ⟨(h.1 false).1, h.2⟩

/-- C9: if the shared pose state has never been written, every
broadcaster timer tick still emits a frame transform, and the transform
emitted is the identity/default transform, tagged with the current time
and the configured parent and child frame names. -/
theorem C9_broadcast_before_first_write (fid cfid : String) (now : ℚ) :
    publishCurrentPoseAsTF (initialInterfaceState fid cfid) now =
      { transform := Transformation.identity, stamp := now,
        frame_id := fid, child_frame_id := cfid } := rfl

/-- C10: when publishing a single current pose, the message's header
(timestamp and parent frame id) is copied verbatim from the
caller-supplied header, only the child frame id is overwritten with the
configured child frame name, the transform is the given one, and the
interface state is unchanged. -/
theorem C10_publish_current_pose (s : InterfaceState) (T : Transformation)
    (header : Header) :
    (publishCurrentPose s T header).1.header = header ∧
    (publishCurrentPose s T header).1.header.frame_id = header.frame_id ∧
    (publishCurrentPose s T header).1.child_frame_id = s.child_frame_id ∧
    (publishCurrentPose s T header).1.transform = T ∧
    (publishCurrentPose s T header).2 = s :=
  ⟨rfl, rfl, rfl, rfl, rfl⟩

theorem matOne_ne_zero : (1 : Mat3) ≠ 0 := by
  intro h
  have h0 := congrFun (congrFun h 0) 0
  simp [Matrix.one_apply] at h0

theorem matOne_eq : (1 : Mat3) = !![1, 0, 0; 0, 1, 0; 0, 0, 1] := by
  ext i j
  fin_cases i <;> fin_cases j <;> rfl

theorem rodrigues_one : rodrigues 1 0 ![1, 0, 0] = 1 := by
  ext i j
  fin_cases i <;> fin_cases j <;>
    simp [rodrigues, Matrix.one_apply, Matrix.vecHead, Matrix.vecTail]

theorem block3_demoM : block3 demoM = 1 := by
  ext i j
  fin_cases i <;> fin_cases j <;>
    simp [block3, demoM, Matrix.one_apply, Matrix.vecHead, Matrix.vecTail,
      show Fin.castSucc (2 : Fin 3) = (2 : Fin 4) from rfl]

theorem block3_demoMinv : block3 demoMinv = 1 := by
  ext i j
  fin_cases i <;> fin_cases j <;>
    simp [block3, demoMinv, Matrix.one_apply, Matrix.vecHead, Matrix.vecTail,
      show Fin.castSucc (2 : Fin 3) = (2 : Fin 4) from rfl]

theorem validOracles_one : ValidOracles (1 : Mat3) 2 0 := by
  rw [matOne_eq]
  refine ⟨⟨by norm_num, ?_⟩, le_refl 0, ?_⟩
  · norm_num [sqrtArg, Matrix.vecHead, Matrix.vecTail]
  · norm_num [vecNormSq, quatFromMat, sqrtArg, Matrix.vecHead, Matrix.vecTail]

theorem convert_demoM_R : (convertPose4 demoM 2 0).R = 1 := by
  have h : angleAxisOfQuat (quatFromMat (block3 demoM) 2) 0
      = ⟨1, 0, ![1, 0, 0]⟩ := by
    simp [angleAxisOfQuat]
  show (angleAxisOfQuat (quatFromMat (block3 demoM) 2) 0).toRotationMatrix = 1
  rw [h]
  exact rodrigues_one

theorem block3_demo_hom : block3 ((convertPose4 demoM 2 0).toHomMatrix) = 1 :=
  (block3_homMat (convertPose4 demoM 2 0).R (convertPose4 demoM 2 0).t).trans
    convert_demoM_R

/-- C2: for every 4x4 input matrix whose top-left 3x3 rotation block is
non-degenerate (non-zero, possibly drifted from orthogonality), with
valid square-root oracles, the rotation of the Transformation produced
by the pose converter is orthonormal: its transpose is a two-sided
inverse (unit-norm, pairwise orthogonal rows and columns) and its
determinant is +1.  In this exact-arithmetic model the property holds
exactly, hence within any tolerance. -/
theorem C2_rotation_orthonormal (M : Mat4) (r n : ℚ)
    (_hnz : block3 M ≠ 0) (ho : ValidOracles (block3 M) r n) :
    ((convertPose4 M r n).R.transpose * (convertPose4 M r n).R = 1) ∧
    ((convertPose4 M r n).R * (convertPose4 M r n).R.transpose = 1) ∧
    (convertPose4 M r n).R.det = 1 := by
  obtain ⟨hcs, hax⟩ := angleAxis_constraints (quatFromMat (block3 M) r) n ho.2
  have h1 := rodrigues_transpose_mul _ _ _ hcs hax
  have h3 := rodrigues_det _ _ _ hcs hax
  exact ⟨h1, Matrix.mul_eq_one_comm.mp h1, h3⟩

/-- Witness for C2: the converter output on the sample pose has an
orthonormal rotation. -/
theorem C2_rotation_orthonormal_witness :
    ((convertPose4 demoM 2 0).R.transpose * (convertPose4 demoM 2 0).R = 1) ∧
    ((convertPose4 demoM 2 0).R * (convertPose4 demoM 2 0).R.transpose = 1) ∧
    (convertPose4 demoM 2 0).R.det = 1 :=
  C2_rotation_orthonormal demoM 2 0
    (by rw [block3_demoM]; exact matOne_ne_zero)
    (by rw [block3_demoM]; exact validOracles_one)

/-- C7: the pose conversion is deterministic (it is a function) and
idempotent on its own output: converting the homogeneous matrix rebuilt
from the resulting Transformation yields the same rotation and the same
translation as the first conversion, for any valid square-root oracles
of the second conversion. -/
theorem C7_convert_idempotent (M : Mat4) (r n r' n' : ℚ)
    (ho1 : ValidOracles (block3 M) r n)
    (ho2 : ValidOracles (block3 ((convertPose4 M r n).toHomMatrix)) r' n') :
    convertPose4 ((convertPose4 M r n).toHomMatrix) r' n' = convertPose4 M r n := by
  obtain ⟨hcs, hax⟩ := angleAxis_constraints (quatFromMat (block3 M) r) n ho1.2
  have hblk : block3 ((convertPose4 M r n).toHomMatrix)
      = rodrigues (angleAxisOfQuat (quatFromMat (block3 M) r) n).c
          (angleAxisOfQuat (quatFromMat (block3 M) r) n).s
          (angleAxisOfQuat (quatFromMat (block3 M) r) n).axis :=
    block3_homMat _ _
  rw [hblk] at ho2
  apply Transformation.ext
  · show (angleAxisOfQuat (quatFromMat
        (block3 ((convertPose4 M r n).toHomMatrix)) r') n').toRotationMatrix
      = (convertPose4 M r n).R
    rw [hblk]
    exact shepherd_roundtrip _ _ _ r' n' hcs hax ho2.1 ho2.2
  · show trans3 ((convertPose4 M r n).toHomMatrix) = (convertPose4 M r n).t
    exact trans3_homMat _ _

/-- Witness for C7: re-converting the rebuilt sample pose reproduces the
first conversion. -/
theorem C7_convert_idempotent_witness :
    convertPose4 ((convertPose4 demoM 2 0).toHomMatrix) 2 0 = convertPose4 demoM 2 0 :=
  C7_convert_idempotent demoM 2 0 2 0
    (by rw [block3_demoM]; exact validOracles_one)
    (by rw [block3_demo_hom]; exact validOracles_one)

/-- C8: for every valid 4x4 rigid input matrix (rotation block given in
angle-axis Rodrigues form, last row 0 0 0 1), inverting the
Transformation produced by converting that matrix equals the
Transformation produced by converting the explicitly inverted raw matrix
(characterized as the matrix N with M * N = 1), exactly. -/
theorem C8_inverse_consistent (c s : ℚ) (u t : Fin 3 → ℚ) (N : Mat4) (r n r' n' : ℚ)
    (hcs : c ^ 2 + s ^ 2 = 1) (hu : u 0 ^ 2 + u 1 ^ 2 + u 2 ^ 2 = 1)
    (hN : homMat (rodrigues c s u) t * N = 1)
    (ho1 : ValidOracles (block3 (homMat (rodrigues c s u) t)) r n)
    (ho2 : ValidOracles (block3 N) r' n') :
    (convertPose4 (homMat (rodrigues c s u) t) r n).inverse
      = convertPose4 N r' n' := by
  have hb1 : block3 (homMat (rodrigues c s u) t) = rodrigues c s u := block3_homMat _ _
  rw [hb1] at ho1
  have hR1 : (convertPose4 (homMat (rodrigues c s u) t) r n).R = rodrigues c s u := by
    show (angleAxisOfQuat (quatFromMat
        (block3 (homMat (rodrigues c s u) t)) r) n).toRotationMatrix = _
    rw [hb1]
    exact shepherd_roundtrip c s u r n hcs hu ho1.1 ho1.2
  have ht1 : (convertPose4 (homMat (rodrigues c s u) t) r n).t = t :=
    trans3_homMat _ _
  have hcol := rodrigues_transpose_mul c s u hcs hu
  have hrow : rodrigues c s u * (rodrigues c s u).transpose = 1 :=
    Matrix.mul_eq_one_comm.mp hcol
  have e00 : rodrigues c s u 0 0 * rodrigues c s u 0 0
      + rodrigues c s u 0 1 * rodrigues c s u 0 1
      + rodrigues c s u 0 2 * rodrigues c s u 0 2 = 1 := by
    have h := congrFun (congrFun hrow 0) 0
    simpa [Matrix.mul_apply, Matrix.transpose_apply, Fin.sum_univ_three,
      Matrix.one_apply] using h
  have e01 : rodrigues c s u 0 0 * rodrigues c s u 1 0
      + rodrigues c s u 0 1 * rodrigues c s u 1 1
      + rodrigues c s u 0 2 * rodrigues c s u 1 2 = 0 := by
    have h := congrFun (congrFun hrow 0) 1
    simpa [Matrix.mul_apply, Matrix.transpose_apply, Fin.sum_univ_three,
      Matrix.one_apply] using h
  have e02 : rodrigues c s u 0 0 * rodrigues c s u 2 0
      + rodrigues c s u 0 1 * rodrigues c s u 2 1
      + rodrigues c s u 0 2 * rodrigues c s u 2 2 = 0 := by
    have h := congrFun (congrFun hrow 0) 2
    simpa [Matrix.mul_apply, Matrix.transpose_apply, Fin.sum_univ_three,
      Matrix.one_apply] using h
  have e10 : rodrigues c s u 1 0 * rodrigues c s u 0 0
      + rodrigues c s u 1 1 * rodrigues c s u 0 1
      + rodrigues c s u 1 2 * rodrigues c s u 0 2 = 0 := by
    have h := congrFun (congrFun hrow 1) 0
    simpa [Matrix.mul_apply, Matrix.transpose_apply, Fin.sum_univ_three,
      Matrix.one_apply] using h
  have e11 : rodrigues c s u 1 0 * rodrigues c s u 1 0
      + rodrigues c s u 1 1 * rodrigues c s u 1 1
      + rodrigues c s u 1 2 * rodrigues c s u 1 2 = 1 := by
    have h := congrFun (congrFun hrow 1) 1
    simpa [Matrix.mul_apply, Matrix.transpose_apply, Fin.sum_univ_three,
      Matrix.one_apply] using h
  have e12 : rodrigues c s u 1 0 * rodrigues c s u 2 0
      + rodrigues c s u 1 1 * rodrigues c s u 2 1
      + rodrigues c s u 1 2 * rodrigues c s u 2 2 = 0 := by
    have h := congrFun (congrFun hrow 1) 2
    simpa [Matrix.mul_apply, Matrix.transpose_apply, Fin.sum_univ_three,
      Matrix.one_apply] using h
  have e20 : rodrigues c s u 2 0 * rodrigues c s u 0 0
      + rodrigues c s u 2 1 * rodrigues c s u 0 1
      + rodrigues c s u 2 2 * rodrigues c s u 0 2 = 0 := by
    have h := congrFun (congrFun hrow 2) 0
    simpa [Matrix.mul_apply, Matrix.transpose_apply, Fin.sum_univ_three,
      Matrix.one_apply] using h
  have e21 : rodrigues c s u 2 0 * rodrigues c s u 1 0
      + rodrigues c s u 2 1 * rodrigues c s u 1 1
      + rodrigues c s u 2 2 * rodrigues c s u 1 2 = 0 := by
    have h := congrFun (congrFun hrow 2) 1
    simpa [Matrix.mul_apply, Matrix.transpose_apply, Fin.sum_univ_three,
      Matrix.one_apply] using h
  have e22 : rodrigues c s u 2 0 * rodrigues c s u 2 0
      + rodrigues c s u 2 1 * rodrigues c s u 2 1
      + rodrigues c s u 2 2 * rodrigues c s u 2 2 = 1 := by
    have h := congrFun (congrFun hrow 2) 2
    simpa [Matrix.mul_apply, Matrix.transpose_apply, Fin.sum_univ_three,
      Matrix.one_apply] using h
  set tinv : Fin 3 → ℚ := fun i => -(rodrigues c s u 0 i * t 0
    + rodrigues c s u 1 i * t 1 + rodrigues c s u 2 i * t 2) with htinv
  have hMinv : homMat (rodrigues c s u) t
      * homMat (rodrigues c s u).transpose tinv = 1 := by
    ext i j
    fin_cases i <;> fin_cases j <;>
      simp [homMat, htinv, Matrix.mul_apply, Fin.sum_univ_four,
        Matrix.transpose_apply, Matrix.one_apply]
    · linear_combination e00
    · linear_combination e01
    · linear_combination e02
    · linear_combination (-(t 0)) * e00 - t 1 * e01 - t 2 * e02
    · linear_combination e10
    · linear_combination e11
    · linear_combination e12
    · linear_combination (-(t 0)) * e10 - t 1 * e11 - t 2 * e12
    · linear_combination e20
    · linear_combination e21
    · linear_combination e22
    · linear_combination (-(t 0)) * e20 - t 1 * e21 - t 2 * e22
  have hNinv : N = homMat (rodrigues c s u).transpose tinv := by
    have h1 := Matrix.mul_eq_one_comm.mp hMinv
    calc N = 1 * N := (Matrix.one_mul N).symm
      _ = (homMat (rodrigues c s u).transpose tinv
            * homMat (rodrigues c s u) t) * N := by rw [h1]
      _ = homMat (rodrigues c s u).transpose tinv
            * (homMat (rodrigues c s u) t * N) := Matrix.mul_assoc _ _ _
      _ = homMat (rodrigues c s u).transpose tinv := by rw [hN, Matrix.mul_one]
  have hb2 : block3 N = rodrigues c (-s) u := by
    rw [hNinv, block3_homMat, rodrigues_transpose]
  rw [hb2] at ho2
  have hcs' : c ^ 2 + (-s) ^ 2 = 1 := by linear_combination hcs
  have hR2 : (convertPose4 N r' n').R = rodrigues c (-s) u := by
    show (angleAxisOfQuat (quatFromMat (block3 N) r') n').toRotationMatrix = _
    rw [hb2]
    exact shepherd_roundtrip c (-s) u r' n' hcs' hu ho2.1 ho2.2
  have ht2 : (convertPose4 N r' n').t = tinv := by
    show trans3 N = tinv
    rw [hNinv]
    exact trans3_homMat _ _
  apply Transformation.ext
  · show (convertPose4 (homMat (rodrigues c s u) t) r n).R.transpose
      = (convertPose4 N r' n').R
    rw [hR1, hR2, rodrigues_transpose]
  · have hit : (convertPose4 (homMat (rodrigues c s u) t) r n).inverse.t = tinv := by
      funext i
      show -((convertPose4 (homMat (rodrigues c s u) t) r n).R 0 i
          * (convertPose4 (homMat (rodrigues c s u) t) r n).t 0
        + (convertPose4 (homMat (rodrigues c s u) t) r n).R 1 i
          * (convertPose4 (homMat (rodrigues c s u) t) r n).t 1
        + (convertPose4 (homMat (rodrigues c s u) t) r n).R 2 i
          * (convertPose4 (homMat (rodrigues c s u) t) r n).t 2) = tinv i
      rw [hR1, ht1, htinv]
    exact hit.trans ht2.symm

/-- Witness for C8: on the sample rigid pose (identity rotation,
translation (1,2,3)) and its explicit inverse, inverse-of-converted
equals converted-inverse. -/
theorem C8_inverse_consistent_witness :
    (convertPose4 (homMat (rodrigues 1 0 ![1, 0, 0]) ![1, 2, 3]) 2 0).inverse
      = convertPose4 demoMinv 2 0 :=
  C8_inverse_consistent 1 0 ![1, 0, 0] ![1, 2, 3] demoMinv 2 0 2 0
    (by norm_num) (by norm_num)
    (by
      rw [rodrigues_one]
      ext i j
      fin_cases i <;> fin_cases j <;>
        simp [homMat, demoMinv, Matrix.mul_apply, Fin.sum_univ_four, Matrix.one_apply,
          Matrix.vecHead, Matrix.vecTail])
    (by rw [block3_homMat, rodrigues_one]; exact validOracles_one)
    (by rw [block3_demoMinv]; exact validOracles_one)

end OrbSlam2
